import Mathlib

/-
  Verification development for a single-node Redis-like key-value server
  written in Rust.  The Rust sources are shallowly embedded below:

  * bytes are `Nat` (values 0..255), Rust `Vec<u8>` is `List Nat`;
  * Rust `String` values that travel through the wire codec are modelled by
    their UTF-8 byte sequence (`List Nat`); `String::from_utf8` becomes a
    validity check on those bytes;
  * fallible Rust code returns `Option`/`Except`; a Rust panic (`unwrap`,
    `expect`, out-of-bounds indexing, `.parse().unwrap()`) is modelled as
    `none` of an outer `Option`;
  * `i64`/`u64` arithmetic is `Int`/`Nat` with explicit range checks and
    `% 2^64` where wrap-around matters.
-/

namespace RedisModel

/- ===================== byte-string helpers ===================== -/

/-- Decimal ASCII digits of `n`, least significant first.  `fuel` bounds the
recursion; any `fuel > n` is sufficient. -/
def natDigitsRevAux : Nat → Nat → List Nat
  | 0, _ => []
  | _ + 1, n => if n < 10 then [48 + n] else (48 + n % 10) :: natDigitsRevAux n (n / 10)
  -- fuel `n` suffices for the recursive call because `n / 10 < n` when `10 ≤ n`

/-- Decimal ASCII rendering of a natural number, mirroring Rust's
`format!` for unsigned integers. -/
def natDecimal (n : Nat) : List Nat := (natDigitsRevAux (n + 1) n).reverse

/-- Decimal ASCII rendering of a signed integer, mirroring Rust's
`format!` for `i64`. -/
def intDecimal (i : Int) : List Nat :=
  if i < 0 then 45 :: natDecimal (-i).toNat else natDecimal i.toNat

/-- Numeric value of an ASCII digit byte. -/
def digitVal (b : Nat) : Option Nat :=
  if 48 ≤ b ∧ b ≤ 57 then some (b - 48) else none

/-- Left-to-right accumulation of decimal digits, `none` on a non-digit. -/
def digitsValAux (acc : Nat) : List Nat → Option Nat
  | [] => some acc
  | b :: rest =>
    match digitVal b with
    | some d => digitsValAux (acc * 10 + d) rest
    | none => none

/-- Value of a non-empty all-digit byte string (`none` otherwise). -/
def digitsVal : List Nat → Option Nat
  | [] => none
  | l => digitsValAux 0 l

/-- Model of Rust `str::parse::<i64>()`: optional sign, one or more decimal
digits, result within the `i64` range. -/
def parseI64 : List Nat → Option Int
  | [] => none
  | b :: rest =>
    if b = 43 then (digitsVal rest).bind fun n => if n ≤ 2 ^ 63 - 1 then some (n : Int) else none
    else if b = 45 then (digitsVal rest).bind fun n => if n ≤ 2 ^ 63 then some (-(n : Int)) else none
    else (digitsVal (b :: rest)).bind fun n => if n ≤ 2 ^ 63 - 1 then some (n : Int) else none

/-- A UTF-8 continuation byte (`0x80..0xBF`). -/
def isCont (b : Nat) : Bool := decide (128 ≤ b ∧ b ≤ 191)

/-- UTF-8 validation automaton: `k` is the number of continuation bytes
still expected, the next of which must lie in `lo..hi` (later ones in the
standard `0x80..0xBF` range).  Lead bytes follow the UTF-8 table, with the
usual restricted second-byte ranges for `0xE0`, `0xED`, `0xF0`, `0xF4`
(excluding overlong encodings and surrogates). -/
def utf8ValidAux : Nat → Nat → Nat → List Nat → Bool
  | 0, _, _, [] => true
  | 0, _, _, b :: rest =>
    if b ≤ 127 then utf8ValidAux 0 0 0 rest
    else if 194 ≤ b ∧ b ≤ 223 then utf8ValidAux 1 128 191 rest
    else if b = 224 then utf8ValidAux 2 160 191 rest
    else if (225 ≤ b ∧ b ≤ 236) ∨ b = 238 ∨ b = 239 then utf8ValidAux 2 128 191 rest
    else if b = 237 then utf8ValidAux 2 128 159 rest
    else if b = 240 then utf8ValidAux 3 144 191 rest
    else if 241 ≤ b ∧ b ≤ 243 then utf8ValidAux 3 128 191 rest
    else if b = 244 then utf8ValidAux 3 128 143 rest
    else false
  | _ + 1, _, _, [] => false
  | k + 1, lo, hi, b :: rest =>
    if lo ≤ b ∧ b ≤ hi then utf8ValidAux k 128 191 rest else false

/-- UTF-8 validity of a byte sequence (the check performed by Rust's
`String::from_utf8`). -/
def utf8Valid (l : List Nat) : Bool := utf8ValidAux 0 0 0 l

/-- Model of `String::from_utf8` on a byte vector: the same bytes on success
(strings are carried as their UTF-8 bytes), `none` on invalid UTF-8. -/
def stringFromUtf8 (b : List Nat) : Option (List Nat) :=
  if utf8Valid b then some b else none

/- ===================== wire codec (src/resp.rs) ===================== -/

/-- `RespDataType` from `src/resp.rs` (identical enum `RedisType` in
`src/types.rs`).  Strings are carried as UTF-8 bytes. -/
inductive RespDataType : Type
  | SimpleString : List Nat → RespDataType
  | Error : List Nat → RespDataType
  | Integer : Int → RespDataType
  | BulkString : List Nat → RespDataType
  | Array : List RespDataType → RespDataType
  | NullArray : RespDataType
  | Null : RespDataType

/-- The `\r\n` terminator bytes. -/
def CRLF : List Nat := [13, 10]

mutual

/-- `RespDataType::serialize` from `src/resp.rs`. -/
def RespDataType.serialize : RespDataType → List Nat
  | .SimpleString s => 43 :: (s ++ CRLF)
  | .Error s => 45 :: (s ++ CRLF)
  | .Integer i => 58 :: (intDecimal i ++ CRLF)
  | .BulkString b => 36 :: (natDecimal b.length ++ CRLF ++ b ++ CRLF)
  | .Array xs => 42 :: (natDecimal xs.length ++ CRLF ++ serializeList xs)
  | .NullArray => 42 :: (45 :: 49 :: CRLF)   -- "*-1\r\n"
  | .Null => 36 :: (45 :: 49 :: CRLF)   -- "$-1\r\n"
termination_by structural v => v

/-- Concatenated serialization of array elements (the `for elem in arr`
loop inside `serialize`). -/
def serializeList : List RespDataType → List Nat
  | [] => []
  | x :: xs => RespDataType.serialize x ++ serializeList xs
termination_by structural l => l

end

/-- `read_next_word` from `src/resp.rs`: collect bytes until a `\r`, then
consume one further byte; returns the word and the remaining input. -/
def read_next_word : List Nat → List Nat × List Nat
  | [] => ([], [])
  | b :: rest =>
    if b = 13 then ([], rest.drop 1)
    else
      let p := read_next_word rest
      (b :: p.1, p.2)

mutual

/-- `_parse` from `src/resp.rs`, one invocation.  The result is `none` when
the Rust code panics (`next().unwrap()` on empty input, invalid UTF-8 given
to `from_utf8().unwrap()`, or a non-numeric length/integer given to
`.parse().unwrap()`); otherwise it is the optionally-pushed value (a
wildcard first byte pushes nothing) together with the remaining input.
`fuel` only bounds the recursion depth: every recursive call consumes at
least one input byte, so any `fuel > 2 * input length` is sufficient and
the `fuel = 0` case is unreachable from `RespDataType.parse` below. -/
def parseOneF : Nat → List Nat → Option (Option RespDataType × List Nat)
  | 0, _ => none
  | _ + 1, [] => none
  | fuel + 1, b :: rest =>
    if b = 43 then
      match stringFromUtf8 (read_next_word rest).1 with
      | none => none
      | some s => some (some (.SimpleString s), (read_next_word rest).2)
    else if b = 45 then
      match stringFromUtf8 (read_next_word rest).1 with
      | none => none
      | some s => some (some (.Error s), (read_next_word rest).2)
    else if b = 58 then
      match stringFromUtf8 (read_next_word rest).1 with
      | none => none
      | some s =>
        match parseI64 s with
        | none => none
        | some n => some (some (.Integer n), (read_next_word rest).2)
    else if b = 36 then
      match stringFromUtf8 (read_next_word rest).1 with
      | none => none
      | some s =>
        match parseI64 s with
        | none => none
        | some len =>
          if len = -1 then some (some .Null, (read_next_word rest).2)
          else
            some (some (.BulkString (read_next_word (read_next_word rest).2).1),
              (read_next_word (read_next_word rest).2).2)
    else if b = 42 then
      match stringFromUtf8 (read_next_word rest).1 with
      | none => none
      | some s =>
        match parseI64 s with
        | none => none
        | some len =>
          if len = -1 then some (some .Null, (read_next_word rest).2)
          else
            match parseManyF fuel len.toNat (read_next_word rest).2 with
            | none => none
            | some (vs, r) => some (some (.Array vs), r)
    else
      some (none, rest)

/-- The `for _ in 0..length { _parse(...) }` loop of the array branch:
`n` calls of `_parse`, accumulating the pushed values. -/
def parseManyF : Nat → Nat → List Nat → Option (List RespDataType × List Nat)
  | 0, _, _ => none
  | _ + 1, 0, l => some ([], l)
  | fuel + 1, n + 1, l =>
    match parseOneF fuel l with
    | none => none
    | some (v, r) =>
      match parseManyF fuel n r with
      | none => none
      | some (vs, r') => some (v.toList ++ vs, r')

end

/-- The `while !values_iter.as_slice().is_empty()` loop of
`RespDataType::parse`: repeatedly `_parse` until the input is empty,
collecting the pushed values. -/
def parseAllF : Nat → List Nat → Option (List RespDataType)
  | 0, _ => none
  | _ + 1, [] => some []
  | fuel + 1, b :: rest =>
    match parseOneF fuel (b :: rest) with
    | none => none
    | some (v, r) => (parseAllF fuel r).map (fun vs => v.toList ++ vs)

/-- `RespDataType::parse` from `src/resp.rs`.  `none` models a panic of the
Rust code.  The initial fuel `2 * length + 2` exceeds the maximal recursion
depth, so the result never depends on it (each nested call consumes input). -/
def RespDataType.parse (l : List Nat) : Option (List RespDataType) :=
  parseAllF (2 * l.length + 2) l

/- ===================== keyspace store (src/store.rs) ===================== -/

/-- `RedisKeyValue` from `src/commands.rs` (the string value type stored
under a key: payload plus optional absolute expiry in milliseconds). -/
structure KeyValue where
  value : String
  expired_at_millis : Option Nat
deriving DecidableEq

/-- Modelled from the spec: the store's value union (spec section 3,
"Value: a tagged union over StringValue, ListValue, SortedSetValue,
StreamValue").  The `crate::types` enum holding these variants is not under
`src/` (only its use sites in `src/store.rs` and the command files are);
the claims settled against the keyspace depend only on the tag and on the
string/list payloads, so the sorted-set and stream payloads are not carried
here (the sorted-set structure itself is embedded separately below). -/
inductive StoreValue
  | string (kv : KeyValue)
  | list (l : List String)
  | zset
  | stream

/-- `KeyResult` from `src/store.rs`. -/
inductive KeyResult
  | Created
  | Updated
  | Error (msg : String)

/-- The `data: Mutex<HashMap<String, RedisType>>` field of `RedisStore`,
modelled as an association list (keys unique by construction of the
operations below). -/
def DataTable : Type := List (String × StoreValue)

/-- `HashMap::get`. -/
def lookupKey : DataTable → String → Option StoreValue
  | [], _ => none
  | (k, v) :: rest, key => if k = key then some v else lookupKey rest key

/-- `HashMap::insert` / `Entry::insert`: replace the value if the key is
present, append it otherwise. -/
def setKey : DataTable → String → StoreValue → DataTable
  | [], key, v => [(key, v)]
  | (k, v') :: rest, key, v =>
    if k = key then (key, v) :: rest else (k, v') :: setKey rest key v

/-- `RedisStore::get_list` from `src/store.rs`: the list stored under the
key, or `None` when the key is absent or holds a non-list value. -/
def RedisStore.get_list (data : DataTable) (key : String) : Option (List String) :=
  match lookupKey data key with
  | some (.list l) => some l
  | _ => none

/-- `RedisStore::create` from `src/store.rs`. -/
def RedisStore.create (data : DataTable) (key : String) (v : StoreValue) :
    DataTable × KeyResult :=
  match lookupKey data key with
  | some _ => (data, .Error "Key already exists")
  | none => (setKey data key v, .Created)

/-- `RedisStore::create_or_update_key` from `src/store.rs`.  Note that the
occupied branch guards its `WRONGTYPE` error with
`!matches!(o.get(), _value)`: `_value` is an irrefutable binding pattern,
so the guard is always false and the error branch is dead code — an
occupied entry of any type is simply overwritten. -/
def RedisStore.create_or_update_key (data : DataTable) (key : String) (v : StoreValue) :
    DataTable × KeyResult :=
  match lookupKey data key with
  | some _ => (setKey data key v, .Updated)
  | none => (setKey data key v, .Created)

/- ============ command-layer protocol values (string level) ============ -/

/-- String-level view of `RespDataType` used by the command layer.  The
wire-codec claims above need byte fidelity; the command executors and
parsers only move whole Rust `String`s around, which are carried here as
Lean `String`s. -/
inductive RespValue
  | SimpleString (s : String)
  | Error (s : String)
  | Integer (i : Int)
  | BulkString (s : String)
  | Array (xs : List RespValue)
  | NullArray
  | Null

/-- `RespDataType::bulk_string` helper. -/
def RespValue.bulk_string (s : String) : RespValue := .BulkString s

/-- `RespDataType::error` helper (`RespDataType::Error(e)`). -/
def RespValue.error (s : String) : RespValue := .Error s

/- ============ RPUSH / LPUSH (src/commands/rpush.rs, lpush.rs) ============ -/

/-- `RPushCommand::execute` from `src/commands/rpush.rs`, acting on the
`data` table (`store.get_list` / `store.create`).  Returns the updated
table and the reply.  The `store.notify_key_modified` calls do not touch
the `data` table and carry no reply, so they do not appear in the state
function (their ordering is discussed with the blocking-pop claims). -/
def RPushCommand.execute (data : DataTable) (key : String) (values : List String) :
    DataTable × RespValue :=
  match RedisStore.get_list data key with
  | some l =>
    let l' := l ++ values
    (setKey data key (.list l'), .Integer l'.length)
  | none =>
    let new_list := values
    let len : Int := new_list.length
    match RedisStore.create data key (.list new_list) with
    | (data', .Error e) => (data', RespValue.error e)
    | (data', _) => (data', .Integer len)

/-- `LPushCommand::execute` from `src/commands/lpush.rs`: as RPUSH but each
value is pushed at the front (so a freshly created list holds the values
in reverse argument order). -/
def LPushCommand.execute (data : DataTable) (key : String) (values : List String) :
    DataTable × RespValue :=
  match RedisStore.get_list data key with
  | some l =>
    let l' := values.reverse ++ l
    (setKey data key (.list l'), .Integer l'.length)
  | none =>
    let new_list := values.reverse
    let len : Int := new_list.length
    match RedisStore.create data key (.list new_list) with
    | (data', .Error e) => (data', RespValue.error e)
    | (data', _) => (data', .Integer len)

/- ============ LRANGE (src/commands/lrange.rs) ============ -/

/-- `LRangeCommand::treat_bounds` from `src/commands/lrange.rs`.  `start`
and `end` are the (mutated-in-place) `i64` fields; the returned pair is the
`usize` index range, `none` meaning "reply with an empty array". -/
def LRangeCommand.treat_bounds (start end_ list_len : Int) : Option (Nat × Nat) :=
  if start > list_len then none
  else
    let start1 := if start < 0 then start + list_len else start
    let s := (max start1 0).toNat
    let end1 := if end_ < 0 then end_ + list_len else end_
    let end2 := if end1 > list_len then list_len - 1 else end1
    let e := (max end2 0).toNat
    if start1 > end2 then none else some (s, e)

/-- The `for i in start..=end { result_list.push(list_value[i]) }` loop:
`none` models the index-out-of-bounds panic of `list_value[i]`. -/
def collectRange (l : List String) (s e : Nat) : Option (List RespValue) :=
  (List.range' s (e + 1 - s)).mapM (fun i => (l.get? i).map RespValue.bulk_string)

/-- `LRangeCommand::execute` from `src/commands/lrange.rs` (the same logic
appears in the `LRANGE` arm of `handle_command` in `src/main.rs`).  `none`
models a panic while indexing the list. -/
def LRangeCommand.execute (data : DataTable) (key : String) (start end_ : Int) :
    Option RespValue :=
  match RedisStore.get_list data key with
  | some l =>
    match LRangeCommand.treat_bounds start end_ l.length with
    | none => some (.Array [])
    | some (s, e) => (collectRange l s e).map RespValue.Array
  | none => some (.Array [])

/- ====== the `lists` table (BLPOP / LLEN side of the store) ====== -/

/-- The `lists` field of `RedisStore` (`Mutex<HashMap<String, VecDeque<String>>>`,
its type visible in `src/commands/blpop.rs` at `lpop`'s signature; the field
declaration itself is not under `src/`), modelled as an association list. -/
def ListsTable : Type := List (String × List String)

/-- `HashMap::get` on the lists table. -/
def lookupList : ListsTable → String → Option (List String)
  | [], _ => none
  | (k, v) :: rest, key => if k = key then some v else lookupList rest key

/-- `HashMap::insert`-or-replace on the lists table. -/
def setList : ListsTable → String → List String → ListsTable
  | [], key, v => [(key, v)]
  | (k, v') :: rest, key, v =>
    if k = key then (key, v) :: rest else (k, v') :: setList rest key v

/-- `lpop` from `src/commands/blpop.rs`: pop up to `count` elements from
the front of the list under `key` of the `lists` table (no entry is created
for an absent key); returns the updated table and the reply. -/
def lpop (lists : ListsTable) (key : String) (count : Int) : ListsTable × RespValue :=
  match lookupList lists key with
  | some l =>
    let popped := l.take count.toNat
    let rest := l.drop count.toNat
    let reply :=
      if count = 1 ∧ popped ≠ [] then RespValue.bulk_string (popped.headD "")
      else if count > 1 then RespValue.Array (popped.map RespValue.bulk_string)
      else RespValue.Null
    (setList lists key rest, reply)
  | none => (lists, .Null)

/-- `LLenCommand::execute` from `src/commands/llen.rs`:
`lists.entry(key).or_insert_with(VecDeque::new)` inserts an empty list when
the key is absent, then the length is returned. -/
def LLenCommand.execute (lists : ListsTable) (key : String) : ListsTable × RespValue :=
  match lookupList lists key with
  | some l => (lists, .Integer l.length)
  | none => (setList lists key [], .Integer 0)

/-- The full `RedisStore` state relevant to the list commands: the `data`
table written by RPUSH/LPUSH (via `store.get_list`/`store.create`) and the
separate `lists` table read by BLPOP's `lpop` and by LLEN. -/
structure StoreState where
  data : DataTable
  lists : ListsTable

/- ============ BLPOP (src/commands/blpop.rs) ============ -/

/-- `WaitResult` (returned by `RedisStore::wait_until_timeout`; both are
referenced from `src/commands/blpop.rs` but not defined under `src/`). -/
inductive WaitResult
  | Timeout
  | Notified

/-- Modelled from the spec: `RedisStore::wait_until_timeout` is not under
`src/`.  Spec section 4.4: "wait on rx OR sleep(remaining); on wake,
continue loop" — the wait ends with `Notified` when a notification on the
key's channel arrives before `remaining` elapses, and with `Timeout` when
the sleep completes first.  When no notification ever arrives (`notified =
false`, the never-arriving-producer scenario), the sleep always completes
and the wait returns `Timeout`; in particular a `remaining` of 0
milliseconds times out immediately. -/
def wait_until_timeout (notified : Bool) (remaining_millis : Nat) : WaitResult :=
  if notified ∧ remaining_millis > 0 then .Notified else .Timeout

/-- One pass of the `loop` in `BLPopCommand::execute`
(`src/commands/blpop.rs`) in the scenario where no producer ever pushes
(so the wait, when reached, is never notified).  `timeoutMs` is
`(self.timeout * 1000.0) as u64` (exact for `timeout = 0.0`); `elapsed` is
`utils::now_millis() - start_time`.  Returns `some reply` when this pass
returns, `none` when it loops again.  The `u64` subtraction
`timeout_ms - elapsed` wraps modulo `2^64` (release build). -/
def BLPopCommand.step (lists : ListsTable) (key : String) (timeoutMs : Nat)
    (elapsed : Nat) : Option RespValue :=
  let lpop_result := (lpop lists key 1).2
  match lpop_result with
  | .Null =>
    if timeoutMs > 0 ∧ elapsed ≥ timeoutMs then some .NullArray
    else
      let remaining := (timeoutMs + 2 ^ 64 - elapsed % 2 ^ 64) % 2 ^ 64
      match wait_until_timeout false remaining with
      | .Timeout => some .NullArray
      | .Notified => none
  | v => some (.Array [RespValue.bulk_string key, v])

/-- Whether a reply is an `Integer` (a successful push reply). -/
def RespValue.isInteger : RespValue → Bool
  | .Integer _ => true
  | _ => false

/-- RPUSH acting on the whole store state: `RPushCommand::execute` only
calls `store.get_list`, `store.create` and `store.notify_key_modified`,
which touch the `data` table and the notifier registry — never the `lists`
table. -/
def RPushCommand.executeS (s : StoreState) (key : String) (values : List String) :
    StoreState × RespValue :=
  let p := RPushCommand.execute s.data key values
  (⟨p.1, s.lists⟩, p.2)

/-- BLPOP's `tryPop` (the `lpop(&store.lists, key, 1)` call) acting on the
whole store state: it reads and writes only the `lists` table. -/
def BLPopCommand.tryPopS (s : StoreState) (key : String) : StoreState × RespValue :=
  let p := lpop s.lists key 1
  (⟨s.data, p.1⟩, p.2)

theorem lookupList_setList (lists : ListsTable) (key : String) (v : List String) :
    lookupList (setList lists key v) key = some v := by
  induction lists with
  | nil => simp [setList, lookupList]
  | cons p rest ih =>
    obtain ⟨k, v'⟩ := p
    by_cases h : k = key
    · simp [setList, lookupList, h]
    · simp [setList, lookupList, h, ih]

/- ===================== claims C1, C2, C3, C5, C8, C10 ===================== -/

/-- C1 (amended): executing RPUSH (or LPUSH) on a key that exists holding a
non-list value returns the textual error `Key already exists` — not the
`WRONGTYPE` typed error — and leaves the store unchanged; the push replies
with an integer (success) exactly when the key is absent or holds a list. -/
theorem C1_push_on_nonlist_key (data : DataTable) (key : String) (values : List String) :
    (∀ v, lookupKey data key = some v → (∀ l, v ≠ .list l) →
      (RPushCommand.execute data key values).2 = RespValue.Error "Key already exists" ∧
      (RPushCommand.execute data key values).1 = data ∧
      (LPushCommand.execute data key values).2 = RespValue.Error "Key already exists" ∧
      (LPushCommand.execute data key values).1 = data) ∧
    ((RPushCommand.execute data key values).2.isInteger = true ↔
      lookupKey data key = none ∨ ∃ l, lookupKey data key = some (.list l)) := by
  have hgl : ∀ v, lookupKey data key = some v → (∀ l, v ≠ .list l) →
      RedisStore.get_list data key = none := by
    intro v hv hnl
    unfold RedisStore.get_list
    rw [hv]
    cases v with
    | list l => exact absurd rfl (hnl l)
    | string kv => rfl
    | zset => rfl
    | stream => rfl
  constructor
  · intro v hv hnl
    have h1 := hgl v hv hnl
    unfold RPushCommand.execute LPushCommand.execute RedisStore.create
    rw [h1, hv]
    simp [RespValue.error]
  · unfold RPushCommand.execute
    unfold RedisStore.get_list
    cases hl : lookupKey data key with
    | none =>
      simp [RedisStore.create, hl, RespValue.isInteger]
    | some v =>
      cases v with
      | list l => simp [RespValue.isInteger]
      | string kv => simp [RedisStore.create, hl, RespValue.error, RespValue.isInteger]
      | zset => simp [RedisStore.create, hl, RespValue.error, RespValue.isInteger]
      | stream => simp [RedisStore.create, hl, RespValue.error, RespValue.isInteger]

/-- C1 witness: concrete instantiation of `C1_push_on_nonlist_key` at a
store holding a string under `"k"`. -/
theorem C1_push_on_nonlist_key_witness :
    (RPushCommand.execute [("k", StoreValue.string ⟨"v", none⟩)] "k" ["x"]).2 =
      RespValue.Error "Key already exists" :=
  ((C1_push_on_nonlist_key [("k", StoreValue.string ⟨"v", none⟩)] "k" ["x"]).1
    (StoreValue.string ⟨"v", none⟩) rfl (fun l h => by cases h)).1

/-- C1 counterexample: on a store holding a string under `"k"`, RPUSH
replies with the error `Key already exists`, not with the `WRONGTYPE` typed
error the claim promises (the value is nevertheless left unchanged). -/
theorem C1_push_on_nonlist_key_counterexample :
    (RPushCommand.execute [("k", StoreValue.string ⟨"v", none⟩)] "k" ["x"]).2 =
      RespValue.Error "Key already exists" ∧
    (RPushCommand.execute [("k", StoreValue.string ⟨"v", none⟩)] "k" ["x"]).2 ≠
      RespValue.Error "WRONGTYPE Operation against a key holding the wrong kind of value" := by
  constructor
  · rfl
  · intro h
    rw [show (RPushCommand.execute [("k", StoreValue.string ⟨"v", none⟩)] "k" ["x"]).2 =
        RespValue.Error "Key already exists" from rfl] at h
    simp at h

/-- C2: the element pushed by RPUSH can never be seen by BLPOP's `tryPop`:
starting from the empty store, a consumer's `tryPop` of `"q"` fails, a
producer's complete `RPUSH q v1` then succeeds (replying `:1`), and the
consumer's `tryPop` after the push still fails, because `RPushCommand::execute`
writes the `data` table while `lpop` pops the separate `lists` table (which
the push provably leaves untouched).  In the source the consumer moreover
only subscribes inside `wait_until_timeout`, after `lpop` has returned and
released the `lists` lock, and the producer's key-absent path notifies only
after `create` has released the `data` lock — the claimed
subscribe-before-release / publish-before-release ordering does not hold. -/
theorem C2_rpush_invisible_to_blpop :
    (BLPopCommand.tryPopS ⟨[], []⟩ "q").2 = RespValue.Null ∧
    (RPushCommand.executeS ⟨[], []⟩ "q" ["v1"]).2 = RespValue.Integer 1 ∧
    (RPushCommand.executeS ⟨[], []⟩ "q" ["v1"]).1.lists = ([] : ListsTable) ∧
    (BLPopCommand.tryPopS (RPushCommand.executeS ⟨[], []⟩ "q" ["v1"]).1 "q").2 =
      RespValue.Null :=
  ⟨rfl, rfl, rfl, rfl⟩

/-- C3: on a two-element list, `LRANGE key 0 2` normalizes the bounds to
`(0, 2)` — `treat_bounds` clamps `end` only when it is strictly greater
than the length, so `end = len` survives — and the execution loop then
indexes `list[2]`, out of bounds: the command panics (modelled by `none`)
instead of returning the clamped slice. -/
theorem C3_lrange_end_eq_len_panics :
    LRangeCommand.treat_bounds 0 2 2 = some (0, 2) ∧
    LRangeCommand.execute [("mylist", StoreValue.list ["a", "b"])] "mylist" 0 2 = none :=
  ⟨rfl, rfl⟩

/-- C5: decoding is not total: a frame whose bulk-string length header is
non-numeric (`$abc\r\n`) drives `length_str.parse::<i64>().unwrap()` into a
panic (modelled by `none`) instead of being rejected with a textual
error. -/
theorem C5_nonnumeric_length_header_panics :
    RespDataType.parse [36, 97, 98, 99, 13, 10] = none := rfl

/-- C8: `BLPopCommand::execute` with timeout exactly 0 on a key whose list
stays empty does return the null-array reply: the first loop pass (with
`elapsed = 0`) computes `remaining = (0.0 * 1000.0) as u64 - 0 = 0`
milliseconds and hands it to the wait, which — never being notified —
times out immediately, so the command replies `*-1` instead of blocking
indefinitely. -/
theorem C8_blpop_zero_timeout_replies_nullarray :
    BLPopCommand.step [] "q" 0 0 = some RespValue.NullArray := rfl

/-- C10: LLEN is not read-only: on an absent key it inserts an empty list
into the store's `lists` table (the key exists as an empty list afterwards)
while replying `:0`; on a present list it replies with the length and
leaves the table unchanged. -/
theorem C10_llen_effect (lists : ListsTable) (key : String) :
    (lookupList lists key = none →
      (LLenCommand.execute lists key).2 = RespValue.Integer 0 ∧
      lookupList (LLenCommand.execute lists key).1 key = some []) ∧
    (∀ l, lookupList lists key = some l →
      (LLenCommand.execute lists key).2 = RespValue.Integer l.length ∧
      (LLenCommand.execute lists key).1 = lists) := by
  constructor
  · intro h
    unfold LLenCommand.execute
    rw [h]
    exact ⟨rfl, lookupList_setList lists key []⟩
  · intro l h
    unfold LLenCommand.execute
    rw [h]
    exact ⟨rfl, rfl⟩

/-- C10 witness: `LLenCommand.execute` on the empty table and key `"k"`. -/
theorem C10_llen_effect_witness :
    (LLenCommand.execute [] "k").2 = RespValue.Integer 0 ∧
    lookupList (LLenCommand.execute [] "k").1 "k" = some [] :=
  (C10_llen_effect [] "k").1 rfl

/- ===================== claim C4: codec round-trip ===================== -/

mutual

/-- Null normalization: parsing maps both the `$-1` and the `*-1` frame to
`Null`, so a serialize-parse round trip sends `NullArray` (and `Null`) to
`Null`, recursively inside arrays; every other value is kept as is. -/
def nullNormalize : RespDataType → RespDataType
  | .SimpleString s => .SimpleString s
  | .Error s => .Error s
  | .Integer i => .Integer i
  | .BulkString b => .BulkString b
  | .Array xs => .Array (nullNormalizeList xs)
  | .NullArray => .Null
  | .Null => .Null
termination_by structural v => v

/-- `nullNormalize` mapped over a list. -/
def nullNormalizeList : List RespDataType → List RespDataType
  | [] => []
  | x :: xs => nullNormalize x :: nullNormalizeList xs
termination_by structural l => l

end

mutual

/-- The values representable by the Rust `RespDataType` type whose
serialization survives the parser: strings are valid UTF-8 (automatic for
a Rust `String`) and free of the `\r` byte (which `read_next_word` treats
as a terminator regardless of the declared length), bulk payloads are
`\r`-free, and integers and lengths fit in `i64` (automatic for Rust
`i64`/`usize` values). -/
def wfResp : RespDataType → Prop
  | .SimpleString s => utf8Valid s = true ∧ 13 ∉ s
  | .Error s => utf8Valid s = true ∧ 13 ∉ s
  | .Integer i => -(2 ^ 63 : Int) ≤ i ∧ i < 2 ^ 63
  | .BulkString b => 13 ∉ b ∧ (b.length : Int) < 2 ^ 63
  | .Array xs => (xs.length : Int) < 2 ^ 63 ∧ wfRespList xs
  | .NullArray => True
  | .Null => True
termination_by structural v => v

/-- `wfResp` over all elements of a list. -/
def wfRespList : List RespDataType → Prop
  | [] => True
  | x :: xs => wfResp x ∧ wfRespList xs
termination_by structural l => l

end

theorem read_next_word_append (w r : List Nat) (hw : 13 ∉ w) :
    read_next_word (w ++ 13 :: 10 :: r) = (w, r) := by
  induction w with
  | nil => simp [read_next_word]
  | cons b rest ih =>
    have hb : b ≠ 13 := fun h => hw (h ▸ List.mem_cons_self b rest)
    have hrest : 13 ∉ rest := fun h => hw (List.mem_cons_of_mem b h)
    simp [read_next_word, hb, ih hrest]

theorem natDigitsRevAux_eq (m : Nat) :
    ∀ fuel₁ fuel₂, m < fuel₁ → m < fuel₂ →
      natDigitsRevAux fuel₁ m = natDigitsRevAux fuel₂ m := by
  intro fuel₁ fuel₂ h1 h2
  obtain ⟨g1, rfl⟩ : ∃ g, fuel₁ = g + 1 := ⟨fuel₁ - 1, by omega⟩
  obtain ⟨g2, rfl⟩ : ∃ g, fuel₂ = g + 1 := ⟨fuel₂ - 1, by omega⟩
  rw [natDigitsRevAux, natDigitsRevAux]

theorem natDecimal_step (n : Nat) (h : 10 ≤ n) :
    natDecimal n = natDecimal (n / 10) ++ [48 + n % 10] := by
  have hdiv : n / 10 < n := Nat.div_lt_self (by omega) (by omega)
  unfold natDecimal
  rw [show natDigitsRevAux (n + 1) n = (48 + n % 10) :: natDigitsRevAux n (n / 10) by
    rw [natDigitsRevAux]; simp [Nat.not_lt.mpr h]]
  rw [natDigitsRevAux_eq (n / 10) n (n / 10 + 1) (by omega) (by omega)]
  simp

theorem natDecimal_small (n : Nat) (h : n < 10) : natDecimal n = [48 + n] := by
  unfold natDecimal
  rw [natDigitsRevAux]
  simp [h]

theorem natDecimal_mem (n : Nat) : ∀ b ∈ natDecimal n, 48 ≤ b ∧ b ≤ 57 := by
  induction n using Nat.strong_induction_on with
  | _ n ih =>
    by_cases h : n < 10
    · rw [natDecimal_small n h]
      intro b hb
      simp at hb
      omega
    · rw [natDecimal_step n (by omega)]
      intro b hb
      rcases List.mem_append.mp hb with h1 | h2
      · exact ih (n / 10) (Nat.div_lt_self (by omega) (by omega)) b h1
      · simp at h2
        have := Nat.mod_lt n (show 0 < 10 by omega)
        omega

theorem natDecimal_ne_nil (n : Nat) : natDecimal n ≠ [] := by
  by_cases h : n < 10
  · rw [natDecimal_small n h]; simp
  · rw [natDecimal_step n (by omega)]; simp

theorem digitsValAux_append (acc : Nat) (xs ys : List Nat) :
    digitsValAux acc (xs ++ ys) =
      match digitsValAux acc xs with
      | some m => digitsValAux m ys
      | none => none := by
  induction xs generalizing acc with
  | nil => simp [digitsValAux]
  | cons b rest ih =>
    simp only [List.cons_append, digitsValAux]
    cases digitVal b with
    | none => simp
    | some d => simp [ih]

theorem digitsValAux_natDecimal (n : Nat) : digitsValAux 0 (natDecimal n) = some n := by
  induction n using Nat.strong_induction_on with
  | _ n ih =>
    by_cases h : n < 10
    · rw [natDecimal_small n h]
      simp only [digitsValAux, digitVal]
      rw [if_pos (show 48 ≤ 48 + n ∧ 48 + n ≤ 57 by omega)]
      simp [digitsValAux]
    · rw [natDecimal_step n (by omega)]
      rw [digitsValAux_append]
      rw [ih (n / 10) (Nat.div_lt_self (by omega) (by omega))]
      simp only [digitsValAux, digitVal]
      rw [if_pos (show 48 ≤ 48 + n % 10 ∧ 48 + n % 10 ≤ 57 by omega)]
      simp [digitsValAux]
      omega

theorem digitsVal_natDecimal (n : Nat) : digitsVal (natDecimal n) = some n := by
  cases h : natDecimal n with
  | nil => exact absurd h (natDecimal_ne_nil n)
  | cons b rest =>
    rw [show digitsVal (b :: rest) = digitsValAux 0 (b :: rest) from rfl, ← h]
    exact digitsValAux_natDecimal n

theorem parseI64_natDecimal (n : Nat) (h : (n : Int) < 2 ^ 63) :
    parseI64 (natDecimal n) = some (n : Int) := by
  cases hd : natDecimal n with
  | nil => exact absurd hd (natDecimal_ne_nil n)
  | cons b rest =>
    have hb := natDecimal_mem n b (hd ▸ List.mem_cons_self b rest)
    rw [parseI64]
    rw [if_neg (by omega), if_neg (by omega), ← hd, digitsVal_natDecimal n]
    have h9 : n ≤ 9223372036854775807 := by omega
    simp [h9]

theorem parseI64_intDecimal (i : Int) (h1 : -(2 ^ 63 : Int) ≤ i) (h2 : i < 2 ^ 63) :
    parseI64 (intDecimal i) = some i := by
  unfold intDecimal
  by_cases h : i < 0
  · rw [if_pos h, parseI64]
    rw [if_neg (by omega), if_pos rfl, digitsVal_natDecimal]
    have hle : (-i).toNat ≤ 2 ^ 63 := by omega
    simp [hle]
    omega
  · rw [if_neg h]
    rw [parseI64_natDecimal]
    · congr 1
      omega
    · omega

theorem utf8Valid_ascii (l : List Nat) (h : ∀ b ∈ l, b ≤ 127) : utf8Valid l = true := by
  induction l with
  | nil => rfl
  | cons b rest ih =>
    show utf8ValidAux 0 0 0 (b :: rest) = true
    rw [utf8ValidAux]
    rw [if_pos (h b (List.mem_cons_self b rest))]
    exact ih (fun b hb => h b (List.mem_cons_of_mem _ hb))

theorem utf8Valid_natDecimal (n : Nat) : utf8Valid (natDecimal n) = true :=
  utf8Valid_ascii _ (fun b hb => by have := natDecimal_mem n b hb; omega)

theorem natDecimal_not_cr (n : Nat) : 13 ∉ natDecimal n := by
  intro h
  have := natDecimal_mem n 13 h
  omega

theorem intDecimal_ascii (i : Int) : ∀ b ∈ intDecimal i, b ≤ 127 ∧ b ≠ 13 := by
  unfold intDecimal
  intro b hb
  by_cases h : i < 0
  · rw [if_pos h] at hb
    rcases List.mem_cons.mp hb with h1 | h2
    · omega
    · have := natDecimal_mem _ b h2
      omega
  · rw [if_neg h] at hb
    have := natDecimal_mem _ b hb
    omega

theorem utf8Valid_intDecimal (i : Int) : utf8Valid (intDecimal i) = true :=
  utf8Valid_ascii _ (fun b hb => (intDecimal_ascii i b hb).1)

theorem intDecimal_not_cr (i : Int) : 13 ∉ intDecimal i :=
  fun h => (intDecimal_ascii i 13 h).2 rfl

theorem serialize_length_pos (v : RespDataType) : 1 ≤ (RespDataType.serialize v).length := by
  cases v <;> simp [RespDataType.serialize]

/-- Serialize-then-parse, one value (and, mutually, one element list),
with any sufficient fuel: the parser consumes exactly the serialization and
yields the null-normalized value. -/
theorem roundtrip_fuel :
    ∀ fuel : Nat,
      (∀ v rest, wfResp v → 2 * (RespDataType.serialize v).length ≤ fuel →
        parseOneF fuel (RespDataType.serialize v ++ rest) =
          some (some (nullNormalize v), rest)) ∧
      (∀ xs rest, wfRespList xs → 2 * (serializeList xs).length + 1 ≤ fuel →
        parseManyF fuel xs.length (serializeList xs ++ rest) =
          some (nullNormalizeList xs, rest)) := by
  intro fuel
  induction fuel using Nat.strong_induction_on with
  | _ fuel ih =>
    constructor
    · intro v rest hwf hfuel
      obtain ⟨f, rfl⟩ : ∃ f, fuel = f + 1 :=
        ⟨fuel - 1, by have := serialize_length_pos v; omega⟩
      cases v with
      | SimpleString s =>
        obtain ⟨hutf, hcr⟩ := hwf
        rw [show RespDataType.serialize (.SimpleString s) ++ rest =
            43 :: (s ++ 13 :: 10 :: rest) by simp [RespDataType.serialize, CRLF]]
        rw [parseOneF, if_pos rfl, read_next_word_append s rest hcr]
        rw [stringFromUtf8, if_pos hutf]
        simp [nullNormalize]
      | Error s =>
        obtain ⟨hutf, hcr⟩ := hwf
        rw [show RespDataType.serialize (.Error s) ++ rest =
            45 :: (s ++ 13 :: 10 :: rest) by simp [RespDataType.serialize, CRLF]]
        rw [parseOneF, if_neg (by omega), if_pos rfl, read_next_word_append s rest hcr]
        rw [stringFromUtf8, if_pos hutf]
        simp [nullNormalize]
      | Integer i =>
        obtain ⟨h1, h2⟩ := hwf
        rw [show RespDataType.serialize (.Integer i) ++ rest =
            58 :: (intDecimal i ++ 13 :: 10 :: rest) by simp [RespDataType.serialize, CRLF]]
        rw [parseOneF, if_neg (by omega), if_neg (by omega), if_pos rfl,
          read_next_word_append _ rest (intDecimal_not_cr i)]
        simp [stringFromUtf8, utf8Valid_intDecimal i, parseI64_intDecimal i h1 h2,
          nullNormalize]
      | BulkString b =>
        obtain ⟨hcr, hlen⟩ := hwf
        rw [show RespDataType.serialize (.BulkString b) ++ rest =
            36 :: (natDecimal b.length ++ 13 :: 10 :: (b ++ 13 :: 10 :: rest)) by
          simp [RespDataType.serialize, CRLF]]
        rw [parseOneF, if_neg (by omega), if_neg (by omega), if_neg (by omega), if_pos rfl,
          read_next_word_append _ _ (natDecimal_not_cr b.length)]
        have hne : ¬((b.length : Int) = -1) := by omega
        simp [stringFromUtf8, utf8Valid_natDecimal b.length, parseI64_natDecimal b.length hlen,
          hne, read_next_word_append b rest hcr, nullNormalize]
      | Array xs =>
        obtain ⟨hlen, hwfl⟩ := hwf
        have hslen : (RespDataType.serialize (.Array xs)).length =
            3 + (natDecimal xs.length).length + (serializeList xs).length := by
          simp [RespDataType.serialize, CRLF]
          omega
        rw [show RespDataType.serialize (.Array xs) ++ rest =
            42 :: (natDecimal xs.length ++ 13 :: 10 :: (serializeList xs ++ rest)) by
          simp [RespDataType.serialize, CRLF]]
        rw [parseOneF, if_neg (by omega), if_neg (by omega), if_neg (by omega),
          if_neg (by omega), if_pos rfl,
          read_next_word_append _ _ (natDecimal_not_cr xs.length)]
        have hne : ¬((xs.length : Int) = -1) := by omega
        simp [stringFromUtf8, utf8Valid_natDecimal xs.length, parseI64_natDecimal xs.length hlen,
          hne, Int.toNat_natCast, (ih f (by omega)).2 xs rest hwfl (by omega), nullNormalize]
      | NullArray =>
        rw [show RespDataType.serialize .NullArray ++ rest =
            42 :: ([45, 49] ++ 13 :: 10 :: rest) by simp [RespDataType.serialize, CRLF]]
        rw [parseOneF, if_neg (by omega), if_neg (by omega), if_neg (by omega),
          if_neg (by omega), if_pos rfl,
          read_next_word_append _ rest (by simp)]
        simp [stringFromUtf8, show utf8Valid [45, 49] = true from rfl,
          show parseI64 [45, 49] = some (-1) from rfl, nullNormalize]
      | Null =>
        rw [show RespDataType.serialize .Null ++ rest =
            36 :: ([45, 49] ++ 13 :: 10 :: rest) by simp [RespDataType.serialize, CRLF]]
        rw [parseOneF, if_neg (by omega), if_neg (by omega), if_neg (by omega), if_pos rfl,
          read_next_word_append _ rest (by simp)]
        simp [stringFromUtf8, show utf8Valid [45, 49] = true from rfl,
          show parseI64 [45, 49] = some (-1) from rfl, nullNormalize]
    · intro xs rest hwf hfuel
      obtain ⟨f, rfl⟩ : ∃ f, fuel = f + 1 := ⟨fuel - 1, by omega⟩
      cases xs with
      | nil =>
        rw [show serializeList [] ++ rest = rest by simp [serializeList]]
        rw [show ([] : List RespDataType).length = 0 from rfl]
        rw [parseManyF]
        simp [nullNormalizeList]
      | cons x xs =>
        have hx := serialize_length_pos x
        have hslen : (serializeList (x :: xs)).length =
            (RespDataType.serialize x).length + (serializeList xs).length := by
          simp [serializeList]
        rw [show serializeList (x :: xs) ++ rest =
            RespDataType.serialize x ++ (serializeList xs ++ rest) by
          simp [serializeList, List.append_assoc]]
        rw [show (x :: xs).length = xs.length + 1 from rfl]
        rw [parseManyF]
        simp [(ih f (by omega)).1 x (serializeList xs ++ rest) hwf.1 (by omega),
          (ih f (by omega)).2 xs rest hwf.2 (by omega), nullNormalizeList]

/-- C4 (amended): for every protocol value whose strings are valid UTF-8
and whose string/bulk payloads contain no `\r` byte (and whose integers and
lengths fit in `i64`, automatic in Rust), parsing the serialization yields
exactly the one-element sequence containing the value, normalized by
mapping both `Null` and `NullArray` to `Null` (the `*-1` frame parses to
`Null`), recursively inside arrays.  For a bulk or simple string containing
`\r` the round trip fails, since `read_next_word` stops at the first `\r`
regardless of the declared length (see the counterexample). -/
theorem C4_roundtrip (v : RespDataType) (h : wfResp v) :
    RespDataType.parse (RespDataType.serialize v) = some [nullNormalize v] := by
  unfold RespDataType.parse
  cases hl : RespDataType.serialize v with
  | nil =>
    have hpos := serialize_length_pos v
    rw [hl] at hpos
    simp at hpos
  | cons b tl =>
    have h1 : parseOneF (2 * (b :: tl).length + 1) (b :: tl) =
        some (some (nullNormalize v), []) := by
      have h2 := (roundtrip_fuel (2 * (b :: tl).length + 1)).1 v [] h
        (by rw [← hl]; omega)
      rw [hl] at h2
      simpa using h2
    rw [show 2 * (b :: tl).length + 2 = (2 * (b :: tl).length + 1) + 1 from rfl]
    rw [parseAllF, h1]
    simp [parseAllF]

/-- C4 witness: round trip of a concrete well-formed array value; the
nested `NullArray` comes back normalized to `Null`. -/
theorem C4_roundtrip_witness :
    RespDataType.parse
        ((RespDataType.Array [.Integer 5, .BulkString [104, 105], .NullArray]).serialize) =
      some [RespDataType.Array [.Integer 5, .BulkString [104, 105], .Null]] := by
  have h := C4_roundtrip (.Array [.Integer 5, .BulkString [104, 105], .NullArray])
    (by exact ⟨by norm_num, ⟨by norm_num, by norm_num⟩, ⟨by simp, by norm_num⟩, trivial, trivial⟩)
  simpa [nullNormalize, nullNormalizeList] using h

/-- C4 counterexample: the bulk string `b"a\rb"` is a valid protocol value
(bulk strings are binary safe), but parsing its serialization
`$3\r\na\rb\r\n` yields `[BulkString b"a"]` — `read_next_word` stops at
the embedded `\r` — and not the original value, refuting the unrestricted
round-trip claim (no Null normalization is involved for bulk strings). -/
theorem C4_roundtrip_counterexample :
    RespDataType.parse ((RespDataType.BulkString [97, 13, 98]).serialize) =
      some [RespDataType.BulkString [97]] ∧
    RespDataType.parse ((RespDataType.BulkString [97, 13, 98]).serialize) ≠
      some [RespDataType.BulkString [97, 13, 98]] := by
  have hs : (RespDataType.BulkString [97, 13, 98]).serialize =
      [36, 51, 13, 10, 97, 13, 98, 13, 10] := by
    simp [RespDataType.serialize, natDecimal, natDigitsRevAux, CRLF]
  rw [hs]
  constructor
  · rfl
  · intro hcontra
    rw [show RespDataType.parse [36, 51, 13, 10, 97, 13, 98, 13, 10] =
        some [RespDataType.BulkString [97]] from rfl] at hcontra
    simp at hcontra

/- ========== sorted sets (src/commands/sorted_sets.rs) ========== -/

/-- `Ord for SortedValue` from `src/commands/sorted_sets.rs`:
`score.total_cmp(&other.score).then_with(|| member.cmp(&other.member))`.
The development is parametric in the score type: the only property of
`f64` under `total_cmp` it uses is that it is a linear order (IEEE
total order, NaN-safe), so scores range over any `LinearOrder`
(instantiated with `Int` in the witnesses; a member pair is
`(score, member)`). -/
def svLt {α : Type} [LinearOrder α] (a b : α × String) : Prop :=
  a.1 < b.1 ∨ (a.1 = b.1 ∧ a.2 < b.2)

instance svLtDecidable {α : Type} [LinearOrder α] (a b : α × String) :
    Decidable (svLt a b) := by
  unfold svLt
  infer_instance

/-- `BTreeSet<SortedValue>::insert`: ordered insertion under the
`(score, member)` order; an already-present element leaves the set
unchanged. -/
def setInsert {α : Type} [LinearOrder α] : List (α × String) → (α × String) → List (α × String)
  | [], v => [v]
  | x :: xs, v =>
    if svLt v x then v :: x :: xs
    else if v = x then x :: xs
    else x :: setInsert xs v

/-- `BTreeSet<SortedValue>::remove`: remove the (unique) equal element. -/
def setRemove {α : Type} [DecidableEq α] : List (α × String) → (α × String) → List (α × String)
  | [], _ => []
  | x :: xs, v => if x = v then xs else x :: setRemove xs v

/-- `BTreeMap::get` (the map is keyed by member). -/
def mapGet {β : Type} : List (String × β) → String → Option β
  | [], _ => none
  | (k', v') :: rest, k => if k' = k then some v' else mapGet rest k

/-- `BTreeMap::insert`: replace the value under an existing key (returning
the old value) or add a new entry; iteration order of the map is never
observed (only `len` and `get` are used), so an association list models
it. -/
def mapInsert {β : Type} : List (String × β) → String → β → Option β × List (String × β)
  | [], k, v => (none, [(k, v)])
  | (k', v') :: rest, k, v =>
    if k' = k then (some v', (k, v) :: rest)
    else
      let p := mapInsert rest k v
      (p.1, (k', v') :: p.2)

/-- `BTreeMap::remove`. -/
def mapRemove {β : Type} : List (String × β) → String → Option β × List (String × β)
  | [], _ => (none, [])
  | (k', v') :: rest, k =>
    if k' = k then (some v', rest)
    else
      let p := mapRemove rest k
      (p.1, (k', v') :: p.2)

/-- `RedisSortedSet` from `src/commands/sorted_sets.rs` (same structure in
`src/datatypes/sorted_set.rs`): an ordered set of `(score, member)` entries
and a map `member → SortedValue`. -/
structure RedisSortedSet (α : Type) where
  set : List (α × String)
  map : List (String × (α × String))

/-- `RedisSortedSet::new`. -/
def RedisSortedSet.new (α : Type) : RedisSortedSet α := ⟨[], []⟩

/-- `RedisSortedSet::insert` from `src/commands/sorted_sets.rs` (named
`replace` in `src/datatypes/sorted_set.rs`, same body): insert the value
into the map under its member; if an old value was replaced, drop it from
the ordered set; insert the new value into the ordered set.  Returns the
count of newly added members (1 or 0). -/
def RedisSortedSet.insert {α : Type} [LinearOrder α] (s : RedisSortedSet α)
    (v : α × String) : RedisSortedSet α × Int :=
  match mapInsert s.map v.2 v with
  | (some old, map') => (⟨setInsert (setRemove s.set old) v, map'⟩, 0)
  | (none, map') => (⟨setInsert s.set v, map'⟩, 1)

/-- `RedisSortedSet::remove_by_member` from `src/datatypes/sorted_set.rs`. -/
def RedisSortedSet.remove_by_member {α : Type} [LinearOrder α] (s : RedisSortedSet α)
    (m : String) : RedisSortedSet α × Int :=
  match mapRemove s.map m with
  | (some old, map') => (⟨setRemove s.set old, map'⟩, 1)
  | (none, _) => (s, 0)

/-- `RedisSortedSet::get_rank_by_member`: the position in the ordered set
of the first element equal to the member's stored value. -/
def RedisSortedSet.get_rank_by_member {α : Type} [LinearOrder α] (s : RedisSortedSet α)
    (m : String) : Option Int :=
  match mapGet s.map m with
  | some v => (s.set.findIdx? (fun x => x == v)).map (fun n => (n : Int))
  | none => none

/-- `RedisSortedSet::len` (`map.len()`). -/
def RedisSortedSet.len {α : Type} (s : RedisSortedSet α) : Int := s.map.length

/-- `RedisSortedSet::range`: `set.iter().skip(start).take(end - start + 1)`
(the subtraction is on `usize`; all call sites ensure `start ≤ end`). -/
def RedisSortedSet.range {α : Type} (s : RedisSortedSet α) (start endIdx : Nat) :
    List (α × String) :=
  (s.set.drop start).take (endIdx - start + 1)

/-- `ZRangeCommand::treat_bounds` from `src/commands/zrange.rs` (unlike the
LRANGE version, the early return fires already at `start = set_size`). -/
def ZRangeCommand.treat_bounds (start end_ set_size : Int) : Option (Nat × Nat) :=
  if start ≥ set_size then none
  else
    let start1 := if start < 0 then start + set_size else start
    let s := (max start1 0).toNat
    let end1 := if end_ < 0 then end_ + set_size else end_
    let end2 := if end1 > set_size then set_size - 1 else end1
    let e := (max end2 0).toNat
    if start1 > end2 then none else some (s, e)

/-- The sorted-set branch of `ZRangeCommand::execute`: normalize the bounds
against `len` and reply with the members of `range`. -/
def ZRangeCommand.executeOnSet {α : Type} [LinearOrder α] (ss : RedisSortedSet α)
    (start end_ : Int) : RespValue :=
  match ZRangeCommand.treat_bounds start end_ ss.len with
  | none => .Array []
  | some (s, e) => .Array ((ss.range s e).map (fun v => RespValue.bulk_string v.2))

/-- A sequence of ZADD-level inserts into a sorted set. -/
def insertAll {α : Type} [LinearOrder α] (s : RedisSortedSet α) :
    List (α × String) → RedisSortedSet α
  | [] => s
  | v :: vs => insertAll (s.insert v).1 vs

/-- One sorted-set mutation: insert-or-replace, or remove-by-member. -/
inductive ZOp (α : Type)
  | ins (v : α × String)
  | rem (m : String)

/-- Apply a sequence of mutations to a sorted set. -/
def applyOps {α : Type} [LinearOrder α] (s : RedisSortedSet α) : List (ZOp α) → RedisSortedSet α
  | [] => s
  | .ins v :: ops => applyOps (s.insert v).1 ops
  | .rem m :: ops => applyOps (s.remove_by_member m).1 ops

section SortedSetLemmas

variable {α : Type} [LinearOrder α]

theorem svLt_irrefl (a : α × String) : ¬svLt a a := by
  simp [svLt]

theorem svLt_trans {a b c : α × String} (h1 : svLt a b) (h2 : svLt b c) : svLt a c := by
  rcases h1 with h1 | ⟨e1, h1⟩ <;> rcases h2 with h2 | ⟨e2, h2⟩
  · exact Or.inl (lt_trans h1 h2)
  · exact Or.inl (by rw [← e2]; exact h1)
  · exact Or.inl (by rw [e1]; exact h2)
  · exact Or.inr ⟨e1.trans e2, lt_trans h1 h2⟩

theorem svLt_ne {a b : α × String} (h : svLt a b) : a ≠ b :=
  fun he => svLt_irrefl b (he ▸ h)

theorem svLt_asymm {a b : α × String} (h : svLt a b) : ¬svLt b a :=
  fun h2 => svLt_irrefl a (svLt_trans h h2)

theorem svLt_total (a b : α × String) : svLt a b ∨ a = b ∨ svLt b a := by
  obtain ⟨a1, a2⟩ := a
  obtain ⟨b1, b2⟩ := b
  rcases lt_trichotomy a1 b1 with h | h | h
  · exact Or.inl (Or.inl h)
  · rcases lt_trichotomy a2 b2 with h2 | h2 | h2
    · exact Or.inl (Or.inr ⟨h, h2⟩)
    · subst h; subst h2; exact Or.inr (Or.inl rfl)
    · exact Or.inr (Or.inr (Or.inr ⟨h.symm, h2⟩))
  · exact Or.inr (Or.inr (Or.inl h))

theorem nodup_of_pairwise_svLt {l : List (α × String)} (h : l.Pairwise svLt) : l.Nodup :=
  h.imp (fun hab => svLt_ne hab)

theorem setInsert_mem (l : List (α × String)) (v w : α × String) :
    w ∈ setInsert l v ↔ w = v ∨ w ∈ l := by
  induction l with
  | nil => simp [setInsert]
  | cons x xs ih =>
    simp only [setInsert]
    by_cases h1 : svLt v x
    · rw [if_pos h1]
      simp [List.mem_cons]
    · rw [if_neg h1]
      by_cases h2 : v = x
      · rw [if_pos h2]
        subst h2
        simp [List.mem_cons]
      · rw [if_neg h2]
        simp [List.mem_cons, ih]
        tauto

theorem setInsert_pairwise (l : List (α × String)) (v : α × String)
    (hs : l.Pairwise svLt) : (setInsert l v).Pairwise svLt := by
  induction l with
  | nil => simp [setInsert]
  | cons x xs ih =>
    rw [List.pairwise_cons] at hs
    obtain ⟨hx, hxs⟩ := hs
    simp only [setInsert]
    by_cases h1 : svLt v x
    · rw [if_pos h1]
      refine List.pairwise_cons.mpr ⟨?_, List.pairwise_cons.mpr ⟨hx, hxs⟩⟩
      intro w hw
      rcases List.mem_cons.mp hw with rfl | hw
      · exact h1
      · exact svLt_trans h1 (hx w hw)
    · rw [if_neg h1]
      by_cases h2 : v = x
      · rw [if_pos h2]
        exact List.pairwise_cons.mpr ⟨hx, hxs⟩
      · rw [if_neg h2]
        refine List.pairwise_cons.mpr ⟨?_, ih hxs⟩
        intro w hw
        rcases (setInsert_mem xs v w).mp hw with rfl | hw
        · rcases svLt_total w x with h | h | h
          · exact absurd h h1
          · exact absurd h h2
          · exact h
        · exact hx w hw

theorem setRemove_sublist (l : List (α × String)) (v : α × String) :
    (setRemove l v).Sublist l := by
  induction l with
  | nil => simp [setRemove]
  | cons x xs ih =>
    simp only [setRemove]
    by_cases h : x = v
    · rw [if_pos h]
      exact List.sublist_cons_self x xs
    · rw [if_neg h]
      exact ih.cons₂ x

theorem setRemove_pairwise (l : List (α × String)) (v : α × String)
    (hs : l.Pairwise svLt) : (setRemove l v).Pairwise svLt :=
  List.Pairwise.sublist (setRemove_sublist l v) hs

theorem setRemove_mem (l : List (α × String)) (v w : α × String) (hnd : l.Nodup) :
    w ∈ setRemove l v ↔ w ∈ l ∧ w ≠ v := by
  induction l with
  | nil => simp [setRemove]
  | cons x xs ih =>
    rw [List.nodup_cons] at hnd
    obtain ⟨hx, hxs⟩ := hnd
    simp only [setRemove]
    by_cases h : x = v
    · subst h
      rw [if_pos rfl]
      constructor
      · intro hw
        exact ⟨List.mem_cons_of_mem _ hw, fun he => hx (he ▸ hw)⟩
      · rintro ⟨hw, hne⟩
        rcases List.mem_cons.mp hw with rfl | hw
        · exact absurd rfl hne
        · exact hw
    · rw [if_neg h]
      simp only [List.mem_cons, ih hxs]
      constructor
      · rintro (rfl | ⟨hw, hne⟩)
        · exact ⟨Or.inl rfl, fun he => h (he ▸ rfl)⟩
        · exact ⟨Or.inr hw, hne⟩
      · rintro ⟨rfl | hw, hne⟩
        · exact Or.inl rfl
        · exact Or.inr ⟨hw, hne⟩

end SortedSetLemmas

section MapLemmas

variable {β : Type}

theorem mapInsert_fst (m : List (String × β)) (k : String) (v : β) :
    (mapInsert m k v).1 = mapGet m k := by
  induction m with
  | nil => simp [mapInsert, mapGet]
  | cons p rest ih =>
    obtain ⟨k', v'⟩ := p
    simp only [mapInsert, mapGet]
    by_cases h : k' = k
    · rw [if_pos h, if_pos h]
    · rw [if_neg h, if_neg h]
      exact ih

theorem mapGet_eq_some_iff (m : List (String × β)) (k : String) (v : β)
    (hnd : (m.map Prod.fst).Nodup) : mapGet m k = some v ↔ (k, v) ∈ m := by
  induction m with
  | nil => simp [mapGet]
  | cons p rest ih =>
    obtain ⟨k', v'⟩ := p
    rw [List.map_cons, List.nodup_cons] at hnd
    obtain ⟨hk, hrest⟩ := hnd
    simp only [mapGet, List.mem_cons]
    by_cases h : k' = k
    · subst h
      rw [if_pos rfl]
      constructor
      · intro hv
        exact Or.inl (by injection hv with hv; rw [hv])
      · rintro (he | hm)
        · injection he with h1 h2
          rw [h2]
        · exact absurd (List.mem_map_of_mem Prod.fst hm) (by simpa using hk)
    · rw [if_neg h]
      rw [ih hrest]
      constructor
      · exact Or.inr
      · rintro (he | hm)
        · injection he with h1 h2
          exact absurd h1.symm h
        · exact hm

theorem mapKey_unique (m : List (String × β)) (hnd : (m.map Prod.fst).Nodup)
    {k : String} {a b : β} (ha : (k, a) ∈ m) (hb : (k, b) ∈ m) : a = b := by
  rw [← mapGet_eq_some_iff m k a hnd] at ha
  rw [← mapGet_eq_some_iff m k b hnd] at hb
  rw [ha] at hb
  injection hb

theorem mapInsert_keys_mem (m : List (String × β)) (k : String) (v : β) (k' : String) :
    k' ∈ (mapInsert m k v).2.map Prod.fst ↔ k' = k ∨ k' ∈ m.map Prod.fst := by
  induction m with
  | nil => simp [mapInsert]
  | cons p rest ih =>
    obtain ⟨k0, v0⟩ := p
    simp only [mapInsert]
    by_cases h : k0 = k
    · subst h
      simp [List.mem_cons]
    · rw [if_neg h]
      simp only [List.map_cons, List.mem_cons, ih]
      tauto

theorem mapInsert_keys_nodup (m : List (String × β)) (k : String) (v : β)
    (hnd : (m.map Prod.fst).Nodup) : ((mapInsert m k v).2.map Prod.fst).Nodup := by
  induction m with
  | nil => simp [mapInsert]
  | cons p rest ih =>
    obtain ⟨k0, v0⟩ := p
    rw [List.map_cons, List.nodup_cons] at hnd
    obtain ⟨hk, hrest⟩ := hnd
    simp only [mapInsert]
    by_cases h : k0 = k
    · subst h
      rw [if_pos rfl]
      simp only [List.map_cons, List.nodup_cons]
      exact ⟨hk, hrest⟩
    · rw [if_neg h]
      simp only [List.map_cons, List.nodup_cons]
      refine ⟨?_, ih hrest⟩
      rw [mapInsert_keys_mem]
      rintro (rfl | hmem)
      · exact h rfl
      · exact hk hmem

theorem mapInsert_mem (m : List (String × β)) (k : String) (v : β)
    (hnd : (m.map Prod.fst).Nodup) (k' : String) (v' : β) :
    (k', v') ∈ (mapInsert m k v).2 ↔
      (k' = k ∧ v' = v) ∨ ((k', v') ∈ m ∧ k' ≠ k) := by
  induction m with
  | nil =>
    simp [mapInsert]
  | cons p rest ih =>
    obtain ⟨k0, v0⟩ := p
    rw [List.map_cons, List.nodup_cons] at hnd
    obtain ⟨hk, hrest⟩ := hnd
    have hk' : k0 ∉ List.map Prod.fst rest := hk
    simp only [mapInsert]
    by_cases h : k0 = k
    · subst h
      rw [if_pos rfl]
      simp only [List.mem_cons, Prod.mk.injEq]
      constructor
      · rintro (⟨rfl, rfl⟩ | hmem)
        · exact Or.inl ⟨rfl, rfl⟩
        · refine Or.inr ⟨Or.inr hmem, ?_⟩
          rintro rfl
          exact hk' (List.mem_map_of_mem Prod.fst hmem)
      · rintro (⟨rfl, rfl⟩ | ⟨⟨rfl, rfl⟩ | hmem, hne⟩)
        · exact Or.inl ⟨rfl, rfl⟩
        · exact absurd rfl hne
        · exact Or.inr hmem
    · rw [if_neg h]
      simp only [List.mem_cons, Prod.mk.injEq, ih hrest]
      constructor
      · rintro (⟨rfl, rfl⟩ | h2)
        · refine Or.inr ⟨Or.inl ⟨rfl, rfl⟩, ?_⟩
          rintro rfl
          exact h rfl
        · tauto
      · rintro (⟨rfl, rfl⟩ | ⟨⟨rfl, rfl⟩ | hmem, hne⟩)
        · exact Or.inr (Or.inl ⟨rfl, rfl⟩)
        · exact Or.inl ⟨rfl, rfl⟩
        · exact Or.inr (Or.inr ⟨hmem, hne⟩)

theorem mapRemove_fst (m : List (String × β)) (k : String) :
    (mapRemove m k).1 = mapGet m k := by
  induction m with
  | nil => simp [mapRemove, mapGet]
  | cons p rest ih =>
    obtain ⟨k', v'⟩ := p
    simp only [mapRemove, mapGet]
    by_cases h : k' = k
    · rw [if_pos h, if_pos h]
    · rw [if_neg h, if_neg h]
      exact ih

theorem mapRemove_keys_mem (m : List (String × β)) (k : String)
    (hnd : (m.map Prod.fst).Nodup) (k' : String) :
    k' ∈ (mapRemove m k).2.map Prod.fst ↔ k' ∈ m.map Prod.fst ∧ k' ≠ k := by
  induction m with
  | nil => simp [mapRemove]
  | cons p rest ih =>
    obtain ⟨k0, v0⟩ := p
    rw [List.map_cons, List.nodup_cons] at hnd
    obtain ⟨hk, hrest⟩ := hnd
    simp only [mapRemove]
    by_cases h : k0 = k
    · subst h
      rw [if_pos rfl]
      simp only [List.map_cons, List.mem_cons]
      constructor
      · intro hmem
        exact ⟨Or.inr hmem, fun he => hk (he ▸ hmem)⟩
      · rintro ⟨rfl | hmem, hne⟩
        · exact absurd rfl hne
        · exact hmem
    · rw [if_neg h]
      simp only [List.map_cons, List.mem_cons, ih hrest]
      constructor
      · rintro (rfl | ⟨hmem, hne⟩)
        · exact ⟨Or.inl rfl, fun he => h (he ▸ rfl)⟩
        · exact ⟨Or.inr hmem, hne⟩
      · rintro ⟨rfl | hmem, hne⟩
        · exact Or.inl rfl
        · exact Or.inr ⟨hmem, hne⟩

theorem mapRemove_keys_nodup (m : List (String × β)) (k : String)
    (hnd : (m.map Prod.fst).Nodup) : ((mapRemove m k).2.map Prod.fst).Nodup := by
  induction m with
  | nil => simp [mapRemove]
  | cons p rest ih =>
    obtain ⟨k0, v0⟩ := p
    rw [List.map_cons, List.nodup_cons] at hnd
    obtain ⟨hk, hrest⟩ := hnd
    simp only [mapRemove]
    by_cases h : k0 = k
    · rw [if_pos h]
      exact hrest
    · rw [if_neg h, List.map_cons, List.nodup_cons]
      refine ⟨?_, ih hrest⟩
      rw [mapRemove_keys_mem rest k hrest]
      rintro ⟨hmem, _⟩
      exact hk hmem

theorem mapRemove_mem (m : List (String × β)) (k : String)
    (hnd : (m.map Prod.fst).Nodup) (k' : String) (v' : β) :
    (k', v') ∈ (mapRemove m k).2 ↔ (k', v') ∈ m ∧ k' ≠ k := by
  induction m with
  | nil => simp [mapRemove]
  | cons p rest ih =>
    obtain ⟨k0, v0⟩ := p
    rw [List.map_cons, List.nodup_cons] at hnd
    obtain ⟨hk, hrest⟩ := hnd
    have hk' : k0 ∉ List.map Prod.fst rest := hk
    simp only [mapRemove]
    by_cases h : k0 = k
    · subst h
      rw [if_pos rfl]
      simp only [List.mem_cons, Prod.mk.injEq]
      constructor
      · intro hmem
        refine ⟨Or.inr hmem, ?_⟩
        rintro rfl
        exact hk' (List.mem_map_of_mem Prod.fst hmem)
      · rintro ⟨⟨rfl, rfl⟩ | hmem, hne⟩
        · exact absurd rfl hne
        · exact hmem
    · rw [if_neg h]
      simp only [List.mem_cons, Prod.mk.injEq, ih hrest]
      constructor
      · rintro (⟨rfl, rfl⟩ | ⟨hmem, hne⟩)
        · exact ⟨Or.inl ⟨rfl, rfl⟩, fun he => h (he ▸ rfl)⟩
        · exact ⟨Or.inr hmem, hne⟩
      · rintro ⟨⟨rfl, rfl⟩ | hmem, hne⟩
        · exact Or.inl ⟨rfl, rfl⟩
        · exact Or.inr ⟨hmem, hne⟩

end MapLemmas

/-- The dual-index representation invariant of `RedisSortedSet`: the
ordered set is sorted (strictly, under the `(score, member)` order), the
map has no duplicate member keys, every map entry is keyed by its value's
member, and the two indexes hold exactly the same `(score, member)`
entries. -/
structure SSInv {α : Type} [LinearOrder α] (s : RedisSortedSet α) : Prop where
  sorted : s.set.Pairwise svLt
  keysNodup : (s.map.map Prod.fst).Nodup
  wellKeyed : ∀ m v, (m, v) ∈ s.map → v.2 = m
  mem_iff : ∀ v, v ∈ s.set ↔ (v.2, v) ∈ s.map

theorem new_inv {α : Type} [LinearOrder α] : SSInv (RedisSortedSet.new α) := by
  constructor <;> simp [RedisSortedSet.new]

theorem insert_inv {α : Type} [LinearOrder α] (s : RedisSortedSet α) (hinv : SSInv s)
    (v : α × String) : SSInv (s.insert v).1 := by
  obtain ⟨hsort, hkeys, hwk, hmem⟩ := hinv
  have hnd : s.set.Nodup := nodup_of_pairwise_svLt hsort
  rcases hmi : mapInsert s.map v.2 v with ⟨old?, map'⟩
  have hfst : old? = mapGet s.map v.2 := by
    rw [← mapInsert_fst s.map v.2 v, hmi]
  have hmap' : map' = (mapInsert s.map v.2 v).2 := by rw [hmi]
  cases old? with
  | some old =>
    have hres : (s.insert v).1 = ⟨setInsert (setRemove s.set old) v, map'⟩ := by
      unfold RedisSortedSet.insert
      rw [hmi]
    have hold_mem : (v.2, old) ∈ s.map := (mapGet_eq_some_iff _ _ _ hkeys).mp hfst.symm
    have hold2 : old.2 = v.2 := hwk _ _ hold_mem
    rw [hres]
    constructor
    · exact setInsert_pairwise _ _ (setRemove_pairwise _ _ hsort)
    · rw [hmap']
      exact mapInsert_keys_nodup _ _ _ hkeys
    · intro m w hw
      rw [hmap'] at hw
      rcases (mapInsert_mem _ _ _ hkeys _ _).mp hw with ⟨rfl, rfl⟩ | ⟨hw, _⟩
      · rfl
      · exact hwk _ _ hw
    · intro w
      rw [hmap', setInsert_mem, setRemove_mem _ _ _ hnd, mapInsert_mem _ _ _ hkeys]
      constructor
      · rintro (rfl | ⟨hw, hne⟩)
        · exact Or.inl ⟨rfl, rfl⟩
        · have hwmap := (hmem w).mp hw
          refine Or.inr ⟨hwmap, ?_⟩
          intro he
          apply hne
          exact mapKey_unique s.map hkeys (he ▸ hwmap) hold_mem
      · rintro (⟨h2, rfl⟩ | ⟨hwmap, hne⟩)
        · exact Or.inl rfl
        · refine Or.inr ⟨(hmem w).mpr hwmap, ?_⟩
          intro he
          apply hne
          rw [he, hold2]
  | none =>
    have hres : (s.insert v).1 = ⟨setInsert s.set v, map'⟩ := by
      unfold RedisSortedSet.insert
      rw [hmi]
    have hvnotin : ∀ w ∈ s.set, w.2 ≠ v.2 := by
      intro w hw he
      have := (hmem w).mp hw
      rw [he] at this
      rw [(mapGet_eq_some_iff _ _ _ hkeys).mpr this] at hfst
      exact Option.noConfusion hfst
    rw [hres]
    constructor
    · exact setInsert_pairwise _ _ hsort
    · rw [hmap']
      exact mapInsert_keys_nodup _ _ _ hkeys
    · intro m w hw
      rw [hmap'] at hw
      rcases (mapInsert_mem _ _ _ hkeys _ _).mp hw with ⟨rfl, rfl⟩ | ⟨hw, _⟩
      · rfl
      · exact hwk _ _ hw
    · intro w
      rw [hmap', setInsert_mem, mapInsert_mem _ _ _ hkeys]
      constructor
      · rintro (rfl | hw)
        · exact Or.inl ⟨rfl, rfl⟩
        · exact Or.inr ⟨(hmem w).mp hw, hvnotin w hw⟩
      · rintro (⟨h2, rfl⟩ | ⟨hwmap, hne⟩)
        · exact Or.inl rfl
        · exact Or.inr ((hmem w).mpr hwmap)

theorem remove_inv {α : Type} [LinearOrder α] (s : RedisSortedSet α) (hinv : SSInv s)
    (m : String) : SSInv (s.remove_by_member m).1 := by
  obtain ⟨hsort, hkeys, hwk, hmem⟩ := hinv
  have hnd : s.set.Nodup := nodup_of_pairwise_svLt hsort
  rcases hmr : mapRemove s.map m with ⟨old?, map'⟩
  have hfst : old? = mapGet s.map m := by
    rw [← mapRemove_fst s.map m, hmr]
  have hmap' : map' = (mapRemove s.map m).2 := by rw [hmr]
  cases old? with
  | some old =>
    have hres : (s.remove_by_member m).1 = ⟨setRemove s.set old, map'⟩ := by
      unfold RedisSortedSet.remove_by_member
      rw [hmr]
    have hold_mem : (m, old) ∈ s.map := (mapGet_eq_some_iff _ _ _ hkeys).mp hfst.symm
    have hold2 : old.2 = m := hwk _ _ hold_mem
    rw [hres]
    constructor
    · exact setRemove_pairwise _ _ hsort
    · rw [hmap']
      exact mapRemove_keys_nodup _ _ hkeys
    · intro k w hw
      rw [hmap'] at hw
      exact hwk _ _ ((mapRemove_mem _ _ hkeys _ _).mp hw).1
    · intro w
      rw [hmap', setRemove_mem _ _ _ hnd, mapRemove_mem _ _ hkeys]
      constructor
      · rintro ⟨hw, hne⟩
        refine ⟨(hmem w).mp hw, ?_⟩
        intro he
        apply hne
        exact mapKey_unique s.map hkeys (he ▸ (hmem w).mp hw) hold_mem
      · rintro ⟨hwmap, hne⟩
        refine ⟨(hmem w).mpr hwmap, ?_⟩
        intro he
        apply hne
        rw [he, hold2]
  | none =>
    have hres : (s.remove_by_member m).1 = s := by
      unfold RedisSortedSet.remove_by_member
      rw [hmr]
    rw [hres]
    exact ⟨hsort, hkeys, hwk, hmem⟩

theorem applyOps_inv {α : Type} [LinearOrder α] (ops : List (ZOp α)) :
    ∀ s : RedisSortedSet α, SSInv s → SSInv (applyOps s ops) := by
  induction ops with
  | nil => intro s hs; exact hs
  | cons op ops ih =>
    intro s hs
    cases op with
    | ins v => exact ih _ (insert_inv s hs v)
    | rem m => exact ih _ (remove_inv s hs m)

theorem insertAll_inv {α : Type} [LinearOrder α] (vs : List (α × String)) :
    ∀ s : RedisSortedSet α, SSInv s → SSInv (insertAll s vs) := by
  induction vs with
  | nil => intro s hs; exact hs
  | cons v vs ih =>
    intro s hs
    exact ih _ (insert_inv s hs v)

/-- In a strictly sorted list, `position(|item| item == v)` of a present
element returns the number of strictly smaller elements (its 0-based rank),
offset by the starting index. -/
theorem findIdx_sorted {α : Type} [LinearOrder α] (v : α × String) :
    ∀ l : List (α × String), l.Pairwise svLt → v ∈ l → ∀ i,
      l.findIdx? (fun x => x == v) i =
        some (i + (l.filter (fun x => decide (svLt x v))).length) := by
  intro l
  induction l with
  | nil => intro _ hv; cases hv
  | cons x xs ih =>
    intro hs hv i
    rw [List.pairwise_cons] at hs
    obtain ⟨hx, hxs⟩ := hs
    by_cases he : x = v
    · subst he
      rw [List.findIdx?_cons, if_pos (by simp)]
      rw [List.filter_cons, if_neg (by simp [svLt_irrefl])]
      have hnil : xs.filter (fun w => decide (svLt w x)) = [] := by
        rw [List.filter_eq_nil_iff]
        intro w hw
        simp only [decide_eq_true_eq]
        exact svLt_asymm (hx w hw)
      rw [hnil]
      simp
    · have hv' : v ∈ xs := by
        rcases List.mem_cons.mp hv with rfl | h
        · exact absurd rfl he
        · exact h
      have hxv : svLt x v := hx v hv'
      rw [List.findIdx?_cons, if_neg (by simp [he])]
      rw [ih hxs hv' (i + 1)]
      rw [List.filter_cons, if_pos (by simpa using hxv)]
      simp
      omega

theorem insert_map_eq {α : Type} [LinearOrder α] (s : RedisSortedSet α) (v : α × String) :
    (s.insert v).1.map = (mapInsert s.map v.2 v).2 := by
  unfold RedisSortedSet.insert
  rcases hmi : mapInsert s.map v.2 v with ⟨old?, map'⟩
  cases old? <;> rfl

theorem insertAll_keys_mem {α : Type} [LinearOrder α] (vs : List (α × String)) :
    ∀ (s : RedisSortedSet α) (k : String),
      k ∈ (insertAll s vs).map.map Prod.fst ↔
        k ∈ s.map.map Prod.fst ∨ k ∈ vs.map Prod.snd := by
  induction vs with
  | nil => intro s k; simp [insertAll]
  | cons v vs ih =>
    intro s k
    rw [show insertAll s (v :: vs) = insertAll (s.insert v).1 vs from rfl]
    rw [ih, insert_map_eq, mapInsert_keys_mem]
    simp only [List.map_cons, List.mem_cons]
    tauto

/-- C6: starting from the empty sorted set, any sequence of
insert-or-replace (`insert`/`replace`) and remove-by-member operations
leaves the two internal indexes mutually consistent: the member map has no
duplicate keys and the ordered set no duplicate entries (so matches are
unique), every map entry is keyed by its value's member and present in the
ordered set, and every ordered-set entry is present in the map under its
member. -/
theorem C6_dual_index_consistent (α : Type) [LinearOrder α] (ops : List (ZOp α)) :
    ((applyOps (RedisSortedSet.new α) ops).map.map Prod.fst).Nodup ∧
    (applyOps (RedisSortedSet.new α) ops).set.Nodup ∧
    (∀ m v, (m, v) ∈ (applyOps (RedisSortedSet.new α) ops).map →
      v.2 = m ∧ v ∈ (applyOps (RedisSortedSet.new α) ops).set) ∧
    (∀ v, v ∈ (applyOps (RedisSortedSet.new α) ops).set →
      (v.2, v) ∈ (applyOps (RedisSortedSet.new α) ops).map) := by
  have h := applyOps_inv ops (RedisSortedSet.new α) new_inv
  refine ⟨h.keysNodup, nodup_of_pairwise_svLt h.sorted, ?_, fun v hv => (h.mem_iff v).mp hv⟩
  intro m v hv
  have hwk := h.wellKeyed m v hv
  refine ⟨hwk, (h.mem_iff v).mpr ?_⟩
  rw [hwk]
  exact hv

/-- C6 witness: after inserting `(10, "a")` into the empty set, the map
entry under `"a"` is well-keyed and present in the ordered set. -/
theorem C6_dual_index_consistent_witness :
    (((10 : Int), "a") : Int × String).2 = "a" ∧
    (((10 : Int), "a") : Int × String) ∈
      (applyOps (RedisSortedSet.new Int) [ZOp.ins (10, "a")]).set :=
  (C6_dual_index_consistent Int [ZOp.ins (10, "a")]).2.2.1 "a" (10, "a") (by
    show ("a", ((10 : Int), "a")) ∈ [("a", ((10 : Int), "a"))]
    simp)

theorem svLt_b_a : ¬svLt ((10 : Int), "b") ((10 : Int), "a") := by
  rintro (h | ⟨-, h⟩)
  · exact absurd h (by decide)
  · rw [String.lt_iff_toList_lt] at h
    exact absurd h (by decide)

theorem insertAll_ab_eval :
    insertAll (RedisSortedSet.new Int) [((10 : Int), "a"), ((10 : Int), "b")] =
      ⟨[((10 : Int), "a"), ((10 : Int), "b")],
        [("a", ((10 : Int), "a")), ("b", ((10 : Int), "b"))]⟩ := by
  simp [insertAll, RedisSortedSet.new, RedisSortedSet.insert, mapInsert, setInsert, svLt_b_a]

/-- C7: in a sorted set built by inserting any sequence of (score, member)
pairs into a fresh set, (i) the ordered index is strictly sorted by score
then member ascending, (ii) `ZRANK` of every present member returns the
number of entries strictly smaller in that order — its 0-based position —
and (iii) `ZCARD` equals the number of distinct members inserted; in
particular, after inserting `(10, "a")` then `(10, "b")`, `ZRANGE 0 -1`
returns `["a", "b"]` (tie-break by member). -/
theorem C7_rank_and_card (α : Type) [LinearOrder α] (vs : List (α × String)) :
    ((insertAll (RedisSortedSet.new α) vs).set.Pairwise svLt ∧
      (∀ m v, mapGet (insertAll (RedisSortedSet.new α) vs).map m = some v →
        (insertAll (RedisSortedSet.new α) vs).get_rank_by_member m =
          some (((insertAll (RedisSortedSet.new α) vs).set.filter
            (fun x => decide (svLt x v))).length : Int)) ∧
      (insertAll (RedisSortedSet.new α) vs).len = ((vs.map Prod.snd).toFinset.card : Int)) ∧
    ZRangeCommand.executeOnSet
        (insertAll (RedisSortedSet.new Int) [((10 : Int), "a"), ((10 : Int), "b")]) 0 (-1) =
      .Array [RespValue.bulk_string "a", RespValue.bulk_string "b"] := by
  have hinv := insertAll_inv vs (RedisSortedSet.new α) new_inv
  refine ⟨⟨hinv.sorted, ?_, ?_⟩, ?_⟩
  · intro m v hmg
    have hmem := (mapGet_eq_some_iff _ _ _ hinv.keysNodup).mp hmg
    have hv2 : v.2 = m := hinv.wellKeyed _ _ hmem
    have hvset : v ∈ (insertAll (RedisSortedSet.new α) vs).set := by
      rw [hinv.mem_iff v, hv2]
      exact hmem
    unfold RedisSortedSet.get_rank_by_member
    rw [hmg]
    show ((insertAll (RedisSortedSet.new α) vs).set.findIdx?
        (fun x => x == v)).map (fun n => (n : Int)) = _
    rw [findIdx_sorted v _ hinv.sorted hvset 0]
    simp
  · have hext : ((insertAll (RedisSortedSet.new α) vs).map.map Prod.fst).toFinset =
        (vs.map Prod.snd).toFinset := by
      apply Finset.ext
      intro k
      simp only [List.mem_toFinset]
      rw [insertAll_keys_mem]
      simp [RedisSortedSet.new]
    unfold RedisSortedSet.len
    rw [← List.length_map (insertAll (RedisSortedSet.new α) vs).map Prod.fst,
      ← List.toFinset_card_of_nodup hinv.keysNodup, hext]
  · rw [insertAll_ab_eval]
    rfl

/-- C7 witness: in the two-element tie-break example, ZRANK of `"a"` is 0
and ZCARD is 2. -/
theorem C7_rank_and_card_witness :
    (insertAll (RedisSortedSet.new Int)
        [((10 : Int), "a"), ((10 : Int), "b")]).get_rank_by_member "a" = some 0 ∧
    (insertAll (RedisSortedSet.new Int) [((10 : Int), "a"), ((10 : Int), "b")]).len = 2 := by
  have h := (C7_rank_and_card Int [((10 : Int), "a"), ((10 : Int), "b")]).1
  constructor
  · have hr := h.2.1 "a" ((10 : Int), "a") (by rw [insertAll_ab_eval]; rfl)
    rw [hr, insertAll_ab_eval]
    have hf : List.filter (fun x => decide (svLt x ((10 : Int), "a")))
        [((10 : Int), "a"), ((10 : Int), "b")] = [] := by
      rw [List.filter_eq_nil_iff]
      intro w hw
      simp only [List.mem_cons, List.not_mem_nil, or_false] at hw
      simp only [decide_eq_true_eq]
      rcases hw with rfl | rfl
      · exact svLt_irrefl _
      · exact svLt_b_a
    rw [hf]
    rfl
  · rw [h.2.2]
    rfl

/- ========== ZADD parsing (src/commands/zadd.rs, sorted_sets.rs) ========== -/

/-- Model of a Rust `f64` as produced by the argument parser: either the
exact image of an `i64` (`Integer(val) => Some(*val as f64)`) or a float
literal accepted by `str::parse::<f64>()`.  Only parse success/failure and
provenance matter to the parsing claims; float arithmetic is never
performed on these. -/
inductive F64
  | ofInt (i : Int)
  | ofLit (s : String)

/-- One-or-more-decimal-digits check. -/
def allDigits1 (cs : List Char) : Bool := !cs.isEmpty && cs.all Char.isDigit

/-- The optional exponent tail of a float literal (input already
lower-cased): empty, or `e` followed by an optional sign and digits. -/
def expPart : List Char → Bool
  | [] => true
  | 'e' :: r =>
    match r with
    | '+' :: t => allDigits1 t
    | '-' :: t => allDigits1 t
    | t => allDigits1 t
  | _ => false

/-- A decimal float literal body (already lower-cased, sign stripped):
`digits [. digits] [exp]` or `. digits [exp]`. -/
def decimalLit (cs : List Char) : Bool :=
  let intPart := cs.takeWhile Char.isDigit
  let rest := cs.dropWhile Char.isDigit
  match rest with
  | [] => !intPart.isEmpty
  | '.' :: r2 =>
    let frac := r2.takeWhile Char.isDigit
    let r3 := r2.dropWhile Char.isDigit
    (!intPart.isEmpty || !frac.isEmpty) && expPart r3
  | _ => !intPart.isEmpty && expPart rest

/-- Model of `str::parse::<f64>()` acceptance: optional sign, then `inf`,
`infinity`, `nan` (case-insensitive) or a decimal literal. -/
def f64Accepts (s : String) : Bool :=
  let low := s.toList.map Char.toLower
  let body := match low with
    | '+' :: r => r
    | '-' :: r => r
    | r => r
  body = ['i', 'n', 'f'] || body = ['i', 'n', 'f', 'i', 'n', 'i', 't', 'y'] ||
    body = ['n', 'a', 'n'] || decimalLit body

/-- `RedisType::to_string` at the command layer (string-level view). -/
def RespValue.to_string : RespValue → Option String
  | .SimpleString s => some s
  | .Error s => some s
  | .Integer i => some (toString i)
  | .BulkString s => some s
  | _ => none

/-- `RedisType::to_float` at the command layer. -/
def RespValue.to_float : RespValue → Option F64
  | .SimpleString s => if f64Accepts s then some (.ofLit s) else none
  | .Error s => if f64Accepts s then some (.ofLit s) else none
  | .Integer i => some (.ofInt i)
  | .BulkString s => if f64Accepts s then some (.ofLit s) else none
  | _ => none

/-- Model of `str::to_ascii_uppercase`: map the ASCII letters `a..z` of a
string to upper case, leaving every other character unchanged. -/
def to_ascii_uppercase (s : String) : String :=
  ⟨s.toList.map (fun c => if 'a' ≤ c ∧ c ≤ 'z' then Char.ofNat (c.toNat - 32) else c)⟩

/-- `SortedAddOptions` from `src/commands/sorted_sets.rs`. -/
structure SortedAddOptions where
  xx : Bool
  nx : Bool
  lt : Bool
  gt : Bool
  ch : Bool
  incr : Bool

/-- `SortedAddOptions::new`. -/
def SortedAddOptions.new : SortedAddOptions := ⟨false, false, false, false, false, false⟩

/-- The `while let Some(prop_name) = args.as_slice().get(0)` loop of
`SortedAddOptions::parse`, threading the mutable `options`.  `none` models
the `.expect("cannot convert value to string")` panic on an argument that
does not convert to a string; an argument matching no flag ends the loop
without being consumed. -/
def SortedAddOptions.parseAux : SortedAddOptions → List RespValue →
    Option (SortedAddOptions × List RespValue)
  | o, [] => some (o, [])
  | o, a :: rest =>
    match a.to_string with
    | none => none
    | some s =>
      let u := to_ascii_uppercase s
      if u = "XX" then SortedAddOptions.parseAux ⟨true, o.nx, o.lt, o.gt, o.ch, o.incr⟩ rest
      else if u = "NX" then SortedAddOptions.parseAux ⟨o.xx, true, o.lt, o.gt, o.ch, o.incr⟩ rest
      else if u = "LT" then SortedAddOptions.parseAux ⟨o.xx, o.nx, true, o.gt, o.ch, o.incr⟩ rest
      else if u = "GT" then SortedAddOptions.parseAux ⟨o.xx, o.nx, o.lt, true, o.ch, o.incr⟩ rest
      else if u = "CH" then SortedAddOptions.parseAux ⟨o.xx, o.nx, o.lt, o.gt, true, o.incr⟩ rest
      else if u = "INCR" then SortedAddOptions.parseAux ⟨o.xx, o.nx, o.lt, o.gt, o.ch, true⟩ rest
      else some (o, a :: rest)

/-- `SortedAddOptions::parse` from `src/commands/sorted_sets.rs`: set a
flag for each recognized (case-insensitive) leading option argument and
stop at the first unrecognized one; no combination is ever rejected. -/
def SortedAddOptions.parse (args : List RespValue) :
    Option (SortedAddOptions × List RespValue) :=
  SortedAddOptions.parseAux SortedAddOptions.new args

/-- The `while let (Some(score_arg), Some(member_arg))` loop of
`SortedValue::parse`: consume (score, member) pairs; `none` is the
`return None` on a pair that fails `to_float`/`to_string` (a trailing odd
argument is consumed and dropped). -/
def parseSortedValuesAux (acc : List (F64 × String)) : List RespValue →
    Option (List (F64 × String))
  | [] => some acc
  | [_] => some acc
  | score :: member :: rest =>
    match score.to_float, member.to_string with
    | some f, some m => parseSortedValuesAux (acc ++ [(f, m)]) rest
    | _, _ => none

/-- `SortedValue::parse` from `src/commands/sorted_sets.rs`: `None` when a
pair fails to convert or when no pair at all was given. -/
def SortedValue.parse (args : List RespValue) : Option (List (F64 × String)) :=
  match parseSortedValuesAux [] args with
  | none => none
  | some vs => if vs.isEmpty then none else some vs

/-- `ZAddCommand` from `src/commands/zadd.rs`. -/
structure ZAddCommand where
  key : String
  options : SortedAddOptions
  values : List (F64 × String)

/-- `ParseableCommand::get_arg_as_string`. -/
def get_arg_as_string (args : List RespValue) (errMsg : String) :
    Except String (String × List RespValue) :=
  match args with
  | [] => .error errMsg
  | a :: rest =>
    match a.to_string with
    | some s => .ok (s, rest)
    | none => .error errMsg

/-- `ZAddCommand::parse` from `src/commands/zadd.rs`: read the key, then
the flags (`SortedAddOptions::parse` — which never fails), then the
(score, member) pairs.  The outer `none` models the panic of the options
loop on an unconvertible argument. -/
def ZAddCommand.parse (args : List RespValue) : Option (Except String ZAddCommand) :=
  match get_arg_as_string args "ZADD command requires a key" with
  | .error e => some (.error e)
  | .ok (key, rest) =>
    match SortedAddOptions.parse rest with
    | none => none
    | some (options, rest2) =>
      match SortedValue.parse rest2 with
      | none => some (.error "cant parse values")
      | some values => some (.ok ⟨key, options, values⟩)

theorem get_arg_as_string_error (args : List RespValue) (msg e : String)
    (h : get_arg_as_string args msg = .error e) : e = msg := by
  cases args with
  | nil =>
    simp [get_arg_as_string] at h
    exact h.symm
  | cons a rest =>
    cases ha : a.to_string with
    | some s => simp [get_arg_as_string, ha] at h
    | none =>
      simp [get_arg_as_string, ha] at h
      exact h.symm

/-- C9 (amended): ZADD command parsing performs no mutual-exclusivity check
on flags: the only parse errors it can produce are the missing-key error
and the unparsable-values error (an unconvertible flag argument panics
instead), and each of the combinations NX+XX, GT+LT and NX+GT parses
successfully into a ZADD command with both flags set. -/
theorem C9_no_flag_exclusivity_check :
    (∀ args e, ZAddCommand.parse args = some (.error e) →
      e = "ZADD command requires a key" ∨ e = "cant parse values") ∧
    ZAddCommand.parse [.BulkString "k", .BulkString "NX", .BulkString "XX",
        .Integer 1, .BulkString "a"] =
      some (.ok ⟨"k", ⟨true, true, false, false, false, false⟩, [(.ofInt 1, "a")]⟩) ∧
    ZAddCommand.parse [.BulkString "k", .BulkString "GT", .BulkString "LT",
        .Integer 1, .BulkString "a"] =
      some (.ok ⟨"k", ⟨false, false, true, true, false, false⟩, [(.ofInt 1, "a")]⟩) ∧
    ZAddCommand.parse [.BulkString "k", .BulkString "NX", .BulkString "GT",
        .Integer 1, .BulkString "a"] =
      some (.ok ⟨"k", ⟨false, true, false, true, false, false⟩, [(.ofInt 1, "a")]⟩) := by
  refine ⟨?_, rfl, rfl, rfl⟩
  intro args e h
  unfold ZAddCommand.parse at h
  split at h
  · rename_i e' heq
    simp at h
    exact Or.inl (h ▸ get_arg_as_string_error args _ e' heq)
  · rename_i key rest heq
    split at h
    · simp at h
    · rename_i options rest2 heq2
      split at h
      · simp at h
        exact Or.inr h.symm
      · simp at h

/-- C9 witness: instantiation of the error-classification conjunct at the
empty argument list, whose parse fails with the missing-key error. -/
theorem C9_no_flag_exclusivity_check_witness :
    ("ZADD command requires a key" = "ZADD command requires a key" ∨
      "ZADD command requires a key" = "cant parse values") :=
  C9_no_flag_exclusivity_check.1 [] "ZADD command requires a key" rfl

/-- C9 counterexample: the argument list `k NX XX 1 a` — containing the
mutually exclusive pair NX+XX — is not rejected: parsing succeeds and
produces a ZADD command with both `nx` and `xx` set (likewise GT+LT and
NX+GT, see the amended theorem). -/
theorem C9_no_flag_exclusivity_check_counterexample :
    ZAddCommand.parse [.BulkString "k", .BulkString "NX", .BulkString "XX",
        .Integer 1, .BulkString "a"] =
      some (.ok ⟨"k", ⟨true, true, false, false, false, false⟩, [(.ofInt 1, "a")]⟩) ∧
    (match ZAddCommand.parse [.BulkString "k", .BulkString "NX", .BulkString "XX",
        .Integer 1, .BulkString "a"] with
      | some (.error _) => true
      | _ => false) = false :=
  ⟨rfl, rfl⟩
